import Mathlib

/-!
Shallow embedding of src/do_release.py, a release automation script for
the kotlin-datastore repository.

The working tree is modelled as a list of (path, contents) pairs, and
the external world as a ledger of executed commands together with an
oracle giving each command's exit status.  Python exceptions become an
explicit error type carried in an Except value; each operation returns
the (possibly updated) state together with the outcome, so that state
on the error path is still observable.

Strings are processed through their underlying character lists so that
all definitions are structural and kernel-computable.
-/

deriving instance DecidableEq for Except

namespace DoRelease

/-- Error type covering the exceptions the script can raise:
VersionParsingError, InvalidVersionError (its two raise sites),
subprocess failure (from check=True), and ValueError from int(). -/
inductive Err where
  | versionParsing (filename : String)
  | inconsistentVersions (versions : List String)
  | versionNotAllowed (oldVersion newVersion : String)
  | commandFailure (command : List String)
  | valueError (arg : String)
deriving DecidableEq

/-- Classifier for the VersionParsingError exception class. -/
def Err.isVersionParsingError : Err → Bool
  | .versionParsing _ => true
  | _ => false

/-- Classifier for the InvalidVersionError exception class
(raised both for inconsistent versions and for a disallowed change). -/
def Err.isInvalidVersionError : Err → Bool
  | .inconsistentVersions _ => true
  | .versionNotAllowed _ _ => true
  | _ => false

/-- Classifier for an external command failing with nonzero exit status. -/
def Err.isCommandFailure : Err → Bool
  | .commandFailure _ => true
  | _ => false

/-- Classifier for Python's ValueError (raised by int() on bad input). -/
def Err.isValueError : Err → Bool
  | .valueError _ => true
  | _ => false

/-- Split a character list at every occurrence of a separator, like
Python's str.split: the result always has at least one (possibly empty)
group. -/
def splitOnChar (sep : Char) : List Char → List (List Char)
  | [] => [[]]
  | c :: cs =>
    if c = sep then [] :: splitOnChar sep cs
    else
      match splitOnChar sep cs with
      | [] => [[c]]
      | g :: gs => (c :: g) :: gs

/-- Join groups back with a separator character, the inverse of
splitOnChar; used to express per-line rewriting. -/
def joinLines : List (List Char) → List Char
  | [] => []
  | [l] => l
  | l :: ls => l ++ '\n' :: joinLines ls

/-- Test whether a character list starts with the four characters of
the pre-release marker introducer used in the regex r'-pre.*'. -/
def startsWithPre (l : List Char) : Bool :=
  decide (l.take 4 = ['-', 'p', 'r', 'e'])

/-- Remove everything from the first occurrence of "-pre" to the end of
one line (an unescaped dot in the regex does not cross a newline). -/
def stripPreAux : List Char → List Char
  | [] => []
  | c :: cs => if startsWithPre (c :: cs) then [] else c :: stripPreAux cs

/-- Model of re.sub(r'-pre.*', '', version): within each line, remove
from the first occurrence of "-pre" to the end of the line (a match
never crosses a newline, and later occurrences on the same line lie
inside the removed region). -/
def stripPre (cs : List Char) : List Char :=
  joinLines ((splitOnChar '\n' cs).map stripPreAux)

/-- Test for the Python expression '-pre' in version: substring search. -/
def hasPreAux : List Char → Bool
  | [] => false
  | c :: cs => startsWithPre (c :: cs) || hasPreAux cs

/-- String-level wrapper for the substring test '-pre' in version. -/
def hasPre (s : String) : Bool := hasPreAux s.data

/-- The part of the string from the first occurrence of "-pre" on
(empty when there is none); complement of stripPreAux. -/
def sufPre : List Char → List Char
  | [] => []
  | c :: cs => if startsWithPre (c :: cs) then c :: cs else sufPre cs

/-- Strip leading and trailing whitespace, as Python's int() does to
its argument before parsing. -/
def trimWs (cs : List Char) : List Char :=
  ((cs.dropWhile Char.isWhitespace).reverse.dropWhile Char.isWhitespace).reverse

/-- Accumulate decimal digits; none on any non-digit character. -/
def digitsToNatCore : List Char → Nat → Option Nat
  | [], acc => some acc
  | c :: cs, acc =>
    if c.isDigit then digitsToNatCore cs (acc * 10 + (c.toNat - '0'.toNat))
    else none

/-- Parse a nonempty all-digit character list as a natural number. -/
def digitsToNat : List Char → Option Nat
  | [] => none
  | cs => digitsToNatCore cs 0

/-- Python's int() applied to a fragment of a version string: optional
surrounding whitespace, an optional sign, then decimal digits; none
models the ValueError int() raises otherwise (underscore digit
grouping and non-ASCII digits are not modelled). -/
def pyInt (cs : List Char) : Option Int :=
  match trimWs cs with
  | '-' :: ds => (digitsToNat ds).map (fun n => -(n : Int))
  | '+' :: ds => (digitsToNat ds).map (fun n => (n : Int))
  | ds => (digitsToNat ds).map (fun n => (n : Int))

/-- Parse every dot-separated group as an integer, failing on the first
bad group, as the list comprehension in version_ints does. -/
def parseIntList : List (List Char) → Option (List Int)
  | [] => some []
  | g :: gs =>
    match pyInt g with
    | none => none
    | some n =>
      match parseIntList gs with
      | none => none
      | some ns => some (n :: ns)

/-- Model of version_ints: strip a pre-release suffix, split on '.',
parse each component as an integer; none models the ValueError raised
by int() on a non-numeric component. -/
def version_ints (version : String) : Option (List Int) :=
  parseIntList (splitOnChar '.' (stripPre version.data))

/-- Python's lexicographic strict comparison of integer lists. -/
def listLt : List Int → List Int → Bool
  | [], [] => false
  | [], _ :: _ => true
  | _ :: _, [] => false
  | a :: l1, b :: l2 =>
    if a < b then true else if b < a then false else listLt l1 l2

/-- Python's lexicographic non-strict comparison of integer lists,
which for a total element order is the negation of the reverse strict
comparison. -/
def listLe (l1 l2 : List Int) : Bool := !(listLt l2 l1)

/-- Characters of the literal prefix matched by the anchored regex
VERSION_RE. -/
def verPre : List Char := "version = \"".data

/-- Drop an expected literal from the front of a character list. -/
def dropLit : List Char → List Char → Option (List Char)
  | [], cs => some cs
  | _ :: _, [] => none
  | p :: ps, c :: cs => if c = p then dropLit ps cs else none

/-- Attempt the regex VERSION_RE at one position: the literal prefix,
a nonempty greedy run of non-quote characters, then a closing quote.
Returns the captured group and what follows the closing quote. -/
def matchVer (cs : List Char) : Option (List Char × List Char) :=
  match dropLit verPre cs with
  | none => none
  | some r =>
    let v := r.takeWhile (fun c => c != '"')
    match r.drop v.length with
    | '"' :: after => if v.isEmpty then none else some (v, after)
    | _ => none

/-- The captured version of a single line, when the line matches. -/
def lineVersion (l : List Char) : Option (List Char) :=
  (matchVer l).map Prod.fst

/-- First per-line match of VERSION_RE in a file's contents, as the
readlines loop in get_version_from_build computes it. -/
def readFirstL (cs : List Char) : Option (List Char) :=
  (splitOnChar '\n' cs).findSome? lineVersion

/-- Model of get_version_from_build: the first line matching VERSION_RE
yields its captured group, otherwise VersionParsingError. -/
def get_version_from_build (buildFilename : String) (contents : String) :
    Except Err String :=
  match readFirstL contents.data with
  | some v => .ok (String.mk v)
  | none => .error (.versionParsing buildFilename)

/-- Model of the build_filenames selection: os.walk yields files whose
basename is build.gradle.kts. -/
def isBuildFilename (path : String) : Bool :=
  decide ((splitOnChar '/' path.data).getLast? = some "build.gradle.kts".data)

/-- Working tree and external world: file contents by path, plus the
ledger of external commands actually executed, in order. -/
structure St where
  tree : List (String × String)
  commands : List (List String)
deriving DecidableEq

/-- The build files of the working tree, in walk order. -/
def build_files (tree : List (String × String)) : List (String × String) :=
  tree.filter (fun f => isBuildFilename f.1)

/-- Read the version of every build file in order, stopping at the
first VersionParsingError, as the loop in set_version does. -/
def readVersions : List (String × String) → Except Err (List String)
  | [] => .ok []
  | f :: fs =>
    match get_version_from_build f.1 f.2 with
    | .error e => .error e
    | .ok v =>
      match readVersions fs with
      | .error e => .error e
      | .ok vs => .ok (v :: vs)

/-- The distinct elements of a list; only its length (the cardinality
of Python's set(versions)) is ever used. -/
def distinct : List String → List String
  | [] => []
  | v :: vs => if v ∈ vs then distinct vs else v :: distinct vs

/-- One scanning step of re.sub over the whole contents with the
MULTILINE anchored pattern: fuel bounds the recursion and is always at
least the length of the remaining input. atStart tracks whether the
current position follows a newline (or is position zero), where the
caret can match. -/
def subAux (newv : List Char) : Nat → Bool → List Char → List Char
  | 0, _, _ => []
  | _ + 1, _, [] => []
  | fuel + 1, true, c :: cs =>
    match matchVer (c :: cs) with
    | some (_, after) => verPre ++ newv ++ '"' :: subAux newv fuel false after
    | none => c :: subAux newv fuel (c = '\n') cs
  | fuel + 1, false, c :: cs => c :: subAux newv fuel (c = '\n') cs

/-- Whole-text substitution with adequate fuel. -/
def subF (newv : List Char) (atStart : Bool) (cs : List Char) : List Char :=
  subAux newv cs.length atStart cs

/-- Model of VERSION_RE.sub applied to a file's whole contents. The
replacement text is inserted literally; re.sub's backslash-escape
processing inside the replacement is not modelled, so this is faithful
for backslash-free versions. -/
def subVersion (newv : String) (contents : String) : String :=
  String.mk (subF newv.data true contents.data)

/-- Model of set_version: read all build-file versions, require exactly
one distinct value, enforce the increase policy, then rewrite every
build file (or, in dry-run mode, only print). -/
def set_version (version : String) (dry_run : Bool) (s : St) :
    St × Except Err Unit :=
  match readVersions (build_files s.tree) with
  | .error e => (s, .error e)
  | .ok versions =>
    match versions with
    | [] => (s, .error (.inconsistentVersions versions))
    | old_version :: _ =>
      if (distinct versions).length ≠ 1 then
        (s, .error (.inconsistentVersions versions))
      else
        match version_ints old_version with
        | none => (s, .error (.valueError old_version))
        | some old_i =>
          match version_ints version with
          | none => (s, .error (.valueError version))
          | some new_i =>
            let version_ok :=
              if hasPre old_version then listLe old_i new_i
              else listLt old_i new_i
            if !version_ok then
              (s, .error (.versionNotAllowed old_version version))
            else if dry_run then (s, .ok ())
            else
              ({ s with
                  tree := s.tree.map (fun f =>
                    if isBuildFilename f.1 then (f.1, subVersion version f.2)
                    else f) },
                .ok ())

/-- The increase policy of set_version (its lines 100-109) as a
standalone function on the two version strings; none models the
ValueError when a numeric tuple cannot be computed. -/
def is_increase_allowed (old_version new_version : String) : Option Bool :=
  match version_ints old_version, version_ints new_version with
  | some old_i, some new_i =>
    some (if hasPre old_version then listLe old_i new_i else listLt old_i new_i)
  | _, _ => none

/-- Model of run_command: dry-run only prints; otherwise the command is
executed (recorded in the ledger) and a nonzero exit status according
to the oracle becomes a command failure. -/
def run_command (exec : List String → Bool) (command : List String)
    (dry_run : Bool) (s : St) : St × Except Err Unit :=
  if dry_run then (s, .ok ())
  else
    let s' := { s with commands := s.commands ++ [command] }
    if exec command then (s', .ok ()) else (s', .error (.commandFailure command))

/-- Run a list of commands in order, stopping at the first failure. -/
def runAll (exec : List String → Bool) (commands : List (List String))
    (dry_run : Bool) (s : St) : St × Except Err Unit :=
  match commands with
  | [] => (s, .ok ())
  | c :: rest =>
    match run_command exec c dry_run s with
    | (s', .ok _) => runAll exec rest dry_run s'
    | (s', .error e) => (s', .error e)

/-- The dedented commit message template with its two substitutions. -/
def VERSION_BUMP_COMMIT_TEMPLATE (version auditors : String) : String :=
  "Auto-bump version to " ++ version ++
    "\n\nTest plan:\n- fingers crossed\n\nAuditors: " ++ auditors ++ "\n"

/-- Model of commit_version_bump: git add each build file, then one
git commit with the templated message. -/
def commit_version_bump (exec : List String → Bool)
    (version auditors : String) (dry_run : Bool) (s : St) :
    St × Except Err Unit :=
  runAll exec
    ((build_files s.tree).map (fun f => ["git", "add", f.1]) ++
      [["git", "commit", "-m", VERSION_BUMP_COMMIT_TEMPLATE version auditors]])
    dry_run s

/-- Model of make_tag. -/
def make_tag (exec : List String → Bool) (version : String) (dry_run : Bool)
    (s : St) : St × Except Err Unit :=
  run_command exec ["git", "tag", "v" ++ version] dry_run s

/-- Model of git_push: push commits, then push tags. -/
def git_push (exec : List String → Bool) (dry_run : Bool) (s : St) :
    St × Except Err Unit :=
  runAll exec [["git", "push"], ["git", "push", "--tags"]] dry_run s

/-- Model of do_publish. -/
def do_publish (exec : List String → Bool) (dry_run : Bool) (s : St) :
    St × Except Err Unit :=
  run_command exec ["./gradlew", "publish"] dry_run s

/-- Sequence two stateful steps, aborting on the first error while
keeping the state reached so far. -/
def andThen (r : St × Except Err Unit) (k : St → St × Except Err Unit) :
    St × Except Err Unit :=
  match r with
  | (s, .ok _) => k s
  | (s, .error e) => (s, .error e)

/-- Increment the last element of a list, as version_i[-1] += 1 does. -/
def incLast : List Int → List Int
  | [] => []
  | [x] => [x + 1]
  | x :: xs => x :: incLast xs

/-- The next pre-release version computed in do_release from the
released version's numeric tuple. -/
def next_version_of (version_i : List Int) : String :=
  String.intercalate "." ((incLast version_i).map toString) ++ "-pre1"

/-- Model of do_release: the nine-step release sequence. -/
def do_release (exec : List String → Bool) (version auditors : String)
    (dry_run : Bool) (s : St) : St × Except Err Unit :=
  andThen (set_version version dry_run s) (fun s1 =>
  andThen (commit_version_bump exec version auditors dry_run s1) (fun s2 =>
  andThen (make_tag exec version dry_run s2) (fun s3 =>
  andThen (git_push exec dry_run s3) (fun s4 =>
  andThen (do_publish exec dry_run s4) (fun s5 =>
    match version_ints version with
    | none => (s5, .error (.valueError version))
    | some version_i =>
      let next_version := next_version_of version_i
      andThen (set_version next_version dry_run s5) (fun s6 =>
      andThen (commit_version_bump exec next_version auditors dry_run s6) (fun s7 =>
      git_push exec dry_run s7)))))))

/-- Rewrite of a single line by the pattern, used to state the
per-line reading of the substitution: a matching line keeps its prefix
and its tail after the closing quote, with only the captured value
replaced; any other line is untouched. -/
def rewriteLine (newv l : List Char) : List Char :=
  match matchVer l with
  | some (_, after) => verPre ++ newv ++ '"' :: after
  | none => l

/-- The per-line reading of the substitution over a whole file. -/
def perLineSub (newv contents : String) : String :=
  String.mk (joinLines ((splitOnChar '\n' contents.data).map (rewriteLine newv.data)))

/-- A line is unproblematic for the substitution when, if it starts
with the literal prefix of the pattern, its remainder contains a
closing quote (so a match cannot spill across the newline). -/
def okLine (l : List Char) : Bool :=
  match dropLit verPre l with
  | none => true
  | some r => r.any (fun c => c = '"')

/-- All lines of a file are unproblematic for the substitution. -/
def okFile (contents : String) : Bool :=
  (splitOnChar '\n' contents.data).all okLine

/-- Well-formed version string per the spec's data model: a dotted
sequence of nonempty digit groups, optionally followed by a
pre-release marker "-pre" with a digit suffix. -/
def ValidVersionCore (cs : List Char) : Bool :=
  (splitOnChar '.' cs).all (fun g => !g.isEmpty && g.all Char.isDigit)

/-- Well-formed version string per the spec's data model, including
the optional pre-release marker "-preN" with a numeric N. -/
def ValidVersionString (x : String) : Bool :=
  ValidVersionCore (stripPreAux x.data) &&
    (sufPre x.data = [] ||
      match dropLit ['-', 'p', 'r', 'e'] (sufPre x.data) with
      | some ds => !ds.isEmpty && ds.all Char.isDigit
      | none => false)

/-- Recognize a tag-creation command, for stating which steps of the
release sequence create tags. -/
def isTagCmd (c : List String) : Bool := decide (c.take 2 = ["git", "tag"])

/-! ### General lemmas about the version-string helpers -/

theorem listLt_irrefl (l : List Int) : listLt l l = false := by
  induction l with
  | nil => rfl
  | cons a l ih => simp [listLt, ih]

theorem listLe_refl (l : List Int) : listLe l l = true := by
  simp [listLe, listLt_irrefl]

theorem startsWithPre_append (l t : List Char) (h : startsWithPre l = true) :
    startsWithPre (l ++ t) = true := by
  have h4 : l.take 4 = ['-', 'p', 'r', 'e'] := of_decide_eq_true h
  have hlen : 4 ≤ l.length := by
    have := congrArg List.length h4
    simp [List.length_take] at this
    omega
  unfold startsWithPre
  rw [List.take_append_of_le_length hlen, h4]
  rfl

theorem startsWithPre_cons_append (c : Char) (cs ds : List Char)
    (h : startsWithPre (c :: cs) = false) :
    startsWithPre (c :: (cs ++ '-' :: 'p' :: 'r' :: 'e' :: ds)) = false := by
  match cs with
  | [] =>
    unfold startsWithPre
    apply decide_eq_false
    intro hc
    have hc' : [c, '-', 'p', 'r'] = ['-', 'p', 'r', 'e'] := hc
    simp only [List.cons.injEq] at hc'
    exact absurd hc'.2.1 (by decide)
  | [a] =>
    unfold startsWithPre
    apply decide_eq_false
    intro hc
    have hc' : [c, a, '-', 'p'] = ['-', 'p', 'r', 'e'] := hc
    simp only [List.cons.injEq] at hc'
    exact absurd hc'.2.2.1 (by decide)
  | [a, b] =>
    unfold startsWithPre
    apply decide_eq_false
    intro hc
    have hc' : [c, a, b, '-'] = ['-', 'p', 'r', 'e'] := hc
    simp only [List.cons.injEq] at hc'
    exact absurd hc'.2.2.2.1 (by decide)
  | a :: b :: d :: cs' =>
    unfold startsWithPre at h ⊢
    exact h

theorem stripPreAux_append (cs t : List Char) :
    stripPreAux (cs ++ '-' :: 'p' :: 'r' :: 'e' :: t) = stripPreAux cs := by
  induction cs with
  | nil =>
    have hs : startsWithPre ('-' :: 'p' :: 'r' :: 'e' :: t) = true := rfl
    simp [stripPreAux, hs]
  | cons c cs ih =>
    rw [List.cons_append]
    by_cases h : startsWithPre (c :: cs) = true
    · have h2 : startsWithPre (c :: (cs ++ '-' :: 'p' :: 'r' :: 'e' :: t)) = true := by
        have := startsWithPre_append (c :: cs) ('-' :: 'p' :: 'r' :: 'e' :: t) h
        simpa using this
      simp [stripPreAux, h, h2]
    · have h' : startsWithPre (c :: cs) = false := eq_false_of_ne_true h
      have h2 := startsWithPre_cons_append c cs t h'
      simp [stripPreAux, h', h2, ih]

theorem hasPreAux_append (cs t : List Char) :
    hasPreAux (cs ++ '-' :: 'p' :: 'r' :: 'e' :: t) = true := by
  induction cs with
  | nil =>
    have hs : startsWithPre ('-' :: 'p' :: 'r' :: 'e' :: t) = true := rfl
    simp [hasPreAux, hs]
  | cons c cs ih =>
    rw [List.cons_append, hasPreAux, ih]
    simp

theorem hasPre_pre_suffix (v t : String) :
    hasPre (v ++ "-pre" ++ t) = true := by
  unfold hasPre
  have : (v ++ "-pre" ++ t).data = v.data ++ '-' :: 'p' :: 'r' :: 'e' :: t.data := by
    simp [String.data_append]
  rw [this, hasPreAux_append]

theorem distinct_all_eq (a : String) (l : List String) (hne : l ≠ [])
    (h : ∀ x ∈ l, x = a) : distinct l = [a] := by
  induction l with
  | nil => exact absurd rfl hne
  | cons v vs ih =>
    have hv : v = a := h v (by simp)
    subst hv
    by_cases hmem : v ∈ vs
    · have hvs : vs ≠ [] := by
        intro h0
        rw [h0] at hmem
        simp at hmem
      simp only [distinct, if_pos hmem]
      exact ih hvs (fun x hx => h x (by simp [hx]))
    · cases vs with
      | nil => simp [distinct]
      | cons w ws =>
        exfalso
        apply hmem
        have hw : w = v := h w (by simp)
        simp [hw]

theorem runAll_dry (exec : List String → Bool) (cmds : List (List String))
    (s : St) : runAll exec cmds true s = (s, .ok ()) := by
  induction cmds with
  | nil => rfl
  | cons c rest ih => simpa [runAll, run_command] using ih

theorem set_version_dry_fst (version : String) (s : St) :
    (set_version version true s).1 = s := by
  unfold set_version
  cases readVersions (build_files s.tree) with
  | error e => rfl
  | ok versions =>
    cases versions with
    | nil => rfl
    | cons v vs =>
      by_cases hd : (distinct (v :: vs)).length ≠ 1
      · simp only [if_pos hd]
      · simp only [if_neg hd]
        cases version_ints v with
        | none => rfl
        | some oi =>
          cases version_ints version with
          | none => rfl
          | some ni =>
            repeat' first
              | rfl
              | split

theorem commit_version_bump_dry (exec : List String → Bool)
    (version auditors : String) (s : St) :
    commit_version_bump exec version auditors true s = (s, .ok ()) :=
  runAll_dry _ _ _

theorem git_push_dry (exec : List String → Bool) (s : St) :
    git_push exec true s = (s, .ok ()) :=
  runAll_dry _ _ _

theorem andThen_fst (r : St × Except Err Unit) (k : St → St × Except Err Unit)
    (s : St) (h1 : r.1 = s) (h2 : (k s).1 = s) : (andThen r k).1 = s := by
  rcases r with ⟨s0, r0⟩
  cases r0 with
  | error e => simpa using h1
  | ok u =>
    cases u
    have hs0 : s0 = s := h1
    subst hs0
    exact h2

theorem do_release_dry_fst (exec : List String → Bool)
    (version auditors : String) (s : St) :
    (do_release exec version auditors true s).1 = s := by
  unfold do_release
  apply andThen_fst _ _ _ (set_version_dry_fst _ _)
  apply andThen_fst _ _ _ (by rw [commit_version_bump_dry])
  apply andThen_fst _ _ _ (by rfl)
  apply andThen_fst _ _ _ (by rw [git_push_dry])
  apply andThen_fst _ _ _ (by rfl)
  cases hvi : version_ints version with
  | none => rfl
  | some vi =>
    apply andThen_fst _ _ _ (set_version_dry_fst _ _)
    apply andThen_fst _ _ _ (by rw [commit_version_bump_dry])
    rw [git_push_dry]

example : version_ints "1.2.3" = some [1, 2, 3] := by decide
example : version_ints "1.2.3-pre1" = some [1, 2, 3] := by decide
example : version_ints "0.1.10" = some [0, 1, 10] := by decide
example : version_ints "abc" = none := by decide
example : hasPre "1.2.3-pre1" = true := by decide
example : hasPre "1.2.3" = false := by decide
example : listLt [0, 1, 9] [0, 1, 10] = true := by decide
example : next_version_of [0, 1, 10] = "0.1.11-pre1" := by decide
example : subVersion "2.0" "version = \"1.0\"\nrest" = "version = \"2.0\"\nrest" := by
  decide
example : ValidVersionString "0.1.10" = true := by decide
example : ValidVersionString "0.2.0-pre3" = true := by decide
example : ValidVersionString "1.0-pre\"" = false := by decide

/-! ### Inversion lemmas for successful and failing runs -/

theorem andThen_ok_inv (r : St × Except Err Unit) (k : St → St × Except Err Unit)
    (s' : St) (h : andThen r k = (s', .ok ())) :
    ∃ sm, r = (sm, .ok ()) ∧ k sm = (s', .ok ()) := by
  rcases r with ⟨s0, r0⟩
  cases r0 with
  | ok u =>
    cases u
    exact ⟨s0, rfl, h⟩
  | error e => simp [andThen] at h

theorem andThen_error_inv (r : St × Except Err Unit)
    (k : St → St × Except Err Unit) (s' : St) (e : Err)
    (h : andThen r k = (s', .error e)) :
    r = (s', .error e) ∨ ∃ sm, r = (sm, .ok ()) ∧ k sm = (s', .error e) := by
  rcases r with ⟨s0, r0⟩
  cases r0 with
  | ok u =>
    cases u
    exact Or.inr ⟨s0, rfl, h⟩
  | error e0 =>
    left
    simpa [andThen] using h

theorem run_command_ok (exec : List String → Bool) (c : List String) (s s' : St)
    (h : run_command exec c false s = (s', .ok ())) :
    s' = { s with commands := s.commands ++ [c] } := by
  unfold run_command at h
  by_cases hexec : exec c = true
  · simp [hexec] at h
    exact h.symm
  · simp [hexec] at h

theorem run_command_error (exec : List String → Bool) (c : List String)
    (d : Bool) (s s' : St) (e : Err)
    (h : run_command exec c d s = (s', .error e)) : e = .commandFailure c := by
  unfold run_command at h
  by_cases hd : d = true
  · simp [hd] at h
  · by_cases hexec : exec c = true <;> simp [hd, hexec] at h
    exact h.2.symm

theorem runAll_ok (exec : List String → Bool) (cmds : List (List String))
    (s s' : St) (h : runAll exec cmds false s = (s', .ok ())) :
    s'.tree = s.tree ∧ s'.commands = s.commands ++ cmds := by
  induction cmds generalizing s with
  | nil =>
    unfold runAll at h
    injection h with h1 h2
    subst h1
    simp
  | cons c rest ih =>
    unfold runAll at h
    rcases hrc : run_command exec c false s with ⟨sm, rm⟩
    rw [hrc] at h
    cases rm with
    | error e => simp at h
    | ok u =>
      cases u
      have hsm := run_command_ok _ _ _ _ hrc
      subst hsm
      have hrest := ih _ h
      exact ⟨hrest.1, by rw [hrest.2]; simp⟩

theorem runAll_error (exec : List String → Bool) (cmds : List (List String))
    (d : Bool) (s s' : St) (e : Err)
    (h : runAll exec cmds d s = (s', .error e)) :
    ∃ c, e = .commandFailure c := by
  induction cmds generalizing s with
  | nil => simp [runAll] at h
  | cons c rest ih =>
    unfold runAll at h
    rcases hrc : run_command exec c d s with ⟨sm, rm⟩
    rw [hrc] at h
    cases rm with
    | error e0 =>
      have he0 := run_command_error _ _ _ _ _ _ hrc
      simp at h
      exact ⟨c, by rw [← h.2, he0]⟩
    | ok u =>
      cases u
      exact ih _ h

theorem get_version_from_build_error (fn contents : String) (e : Err)
    (h : get_version_from_build fn contents = .error e) :
    e = .versionParsing fn := by
  unfold get_version_from_build at h
  cases hr : readFirstL contents.data <;> rw [hr] at h <;> simp at h
  exact h.symm

theorem readVersions_error (files : List (String × String)) (e : Err)
    (h : readVersions files = .error e) : ∃ fn, e = .versionParsing fn := by
  induction files with
  | nil => simp [readVersions] at h
  | cons f fs ih =>
    unfold readVersions at h
    cases hv : get_version_from_build f.1 f.2 with
    | error e0 =>
      rw [hv] at h
      simp at h
      exact ⟨f.1, by rw [← h, get_version_from_build_error _ _ _ hv]⟩
    | ok v =>
      rw [hv] at h
      cases hrest : readVersions fs with
      | error e0 =>
        rw [hrest] at h
        simp at h
        subst h
        exact ih hrest
      | ok vs => rw [hrest] at h; simp at h

theorem set_version_fst_commands (version : String) (d : Bool) (s : St) :
    ((set_version version d s).1).commands = s.commands := by
  unfold set_version
  cases readVersions (build_files s.tree) with
  | error e => rfl
  | ok versions =>
    cases versions with
    | nil => rfl
    | cons v vs =>
      by_cases hd : (distinct (v :: vs)).length ≠ 1
      · simp only [if_pos hd]
      · simp only [if_neg hd]
        cases version_ints v with
        | none => rfl
        | some oi =>
          cases version_ints version with
          | none => rfl
          | some ni =>
            repeat' first
              | rfl
              | split

theorem set_version_error_shape (version : String) (d : Bool) (s s' : St)
    (e : Err) (h : set_version version d s = (s', .error e)) :
    (∃ fn, e = .versionParsing fn) ∨ (∃ vs, e = .inconsistentVersions vs) ∨
    (∃ o n, e = .versionNotAllowed o n) ∨
    (∃ a, e = .valueError a ∧ version_ints a = none) := by
  unfold set_version at h
  split at h
  next e0 heq =>
    simp at h
    exact Or.inl (h.2 ▸ readVersions_error _ _ heq)
  next versions heq =>
    split at h
    next =>
      simp at h
      exact Or.inr (Or.inl ⟨[], h.2.symm⟩)
    next v vs =>
      split at h
      next hd =>
        simp at h
        exact Or.inr (Or.inl ⟨v :: vs, h.2.symm⟩)
      next hd =>
        split at h
        next hvo =>
          simp at h
          exact Or.inr (Or.inr (Or.inr ⟨v, h.2.symm, hvo⟩))
        next oi hvo =>
          split at h
          next hvn =>
            simp at h
            exact Or.inr (Or.inr (Or.inr ⟨version, h.2.symm, hvn⟩))
          next ni hvn =>
            by_cases hok :
                (if hasPre v then listLe oi ni else listLt oi ni) = true
            · simp only [hok] at h
              by_cases hdd : d = true <;> simp [hdd] at h
            · simp only [eq_false_of_ne_true hok] at h
              simp at h
              exact Or.inr (Or.inr (Or.inl ⟨v, version, h.2.symm⟩))

/-! ### Lemmas about the regex model and the whole-text substitution -/

theorem dropLit_some (p : List Char) : ∀ (cs r : List Char),
    dropLit p cs = some r ↔ cs = p ++ r := by
  induction p with
  | nil =>
    intro cs r
    simp [dropLit]
  | cons a p ih =>
    intro cs r
    cases cs with
    | nil => simp [dropLit]
    | cons c cs' =>
      by_cases hca : c = a
      · subst hca
        simp [dropLit, ih]
      · simp [dropLit, hca]

theorem takeWhile_mem {p : Char → Bool} : ∀ {l : List Char} {c : Char},
    c ∈ l.takeWhile p → p c = true := by
  intro l
  induction l with
  | nil => intro c hc; simp [List.takeWhile] at hc
  | cons a l ih =>
    intro c hc
    by_cases hp : p a = true
    · rw [List.takeWhile_cons, if_pos hp] at hc
      rcases List.mem_cons.mp hc with rfl | hc'
      · exact hp
      · exact ih hc'
    · rw [List.takeWhile_cons, if_neg hp] at hc
      simp at hc

theorem takeWhile_all_stop {p : Char → Bool} (v : List Char) (b : Char)
    (t : List Char) (hv : ∀ c ∈ v, p c = true) (hb : p b = false) :
    (v ++ b :: t).takeWhile p = v := by
  induction v with
  | nil => simp [List.takeWhile_cons, hb]
  | cons c v' ih =>
    have hc : p c = true := hv c (by simp)
    rw [List.cons_append, List.takeWhile_cons, if_pos hc,
      ih (fun d hd => hv d (by simp [hd]))]

theorem drop_takeWhile_length (p : Char → Bool) (l : List Char) :
    l.drop (l.takeWhile p).length = l.dropWhile p := by
  calc l.drop (l.takeWhile p).length
      = ((l.takeWhile p) ++ l.dropWhile p).drop (l.takeWhile p).length := by
        rw [List.takeWhile_append_dropWhile]
    _ = l.dropWhile p := List.drop_left _ _

theorem matchVer_some (cs v after : List Char) :
    matchVer cs = some (v, after) ↔
      (cs = verPre ++ v ++ '"' :: after ∧ v ≠ [] ∧ ∀ c ∈ v, c ≠ '"') := by
  constructor
  · intro h
    unfold matchVer at h
    cases hdl : dropLit verPre cs with
    | none => rw [hdl] at h; simp at h
    | some r =>
      rw [hdl] at h
      simp only [] at h
      rw [drop_takeWhile_length] at h
      cases hdw : r.dropWhile (fun c => c != '"') with
      | nil => rw [hdw] at h; simp at h
      | cons q r' =>
        rw [hdw] at h
        by_cases hq : q = '"'
        · subst hq
          by_cases he : (r.takeWhile (fun c => c != '"')).isEmpty = true
          · simp [he] at h
          · simp only [eq_false_of_ne_true he, Bool.false_eq_true, if_false] at h
            injection h with h2
            injection h2 with hv hafter
            have hr : r = v ++ '"' :: after := by
              rw [← hv, ← hafter, ← hdw, List.takeWhile_append_dropWhile]
            refine ⟨?_, ?_, ?_⟩
            · rw [(dropLit_some verPre cs r).mp hdl, hr]
              simp
            · intro hvnil
              rw [hv, hvnil] at he
              simp at he
            · intro c hc
              have := takeWhile_mem (hv ▸ hc)
              simpa using this
        · split at h
          next af heq2 =>
            injection heq2 with hq2 _
            exact absurd hq2 hq
          next hne2 => simp at h
  · rintro ⟨rfl, hvne, hvq⟩
    unfold matchVer
    rw [show verPre ++ v ++ '"' :: after = verPre ++ (v ++ '"' :: after) by simp]
    have hdl : dropLit verPre (verPre ++ (v ++ '"' :: after)) =
        some (v ++ '"' :: after) := by
      rw [dropLit_some]
    rw [hdl]
    simp only []
    have htw : (v ++ '"' :: after).takeWhile (fun c => c != '"') = v :=
      takeWhile_all_stop v '"' after
        (fun c hc => by simpa using hvq c hc) (by simp)
    rw [htw, List.drop_left]
    have hve : v.isEmpty = false := by
      cases v with
      | nil => exact absurd rfl hvne
      | cons a v' => rfl
    simp [hve]

theorem matchVer_append (cs v a u : List Char)
    (h : matchVer cs = some (v, a)) : matchVer (cs ++ u) = some (v, a ++ u) := by
  obtain ⟨rfl, hv, hq⟩ := (matchVer_some cs v a).mp h
  rw [matchVer_some]
  refine ⟨by simp, hv, hq⟩

theorem matchVer_length (cs v a : List Char) (h : matchVer cs = some (v, a)) :
    a.length < cs.length := by
  obtain ⟨rfl, hv, -⟩ := (matchVer_some cs v a).mp h
  have : v.length ≠ 0 := by simpa using hv
  simp [List.length_append]
  omega

theorem subAux_fuel (x : List Char) : ∀ (n m : Nat) (b : Bool) (cs : List Char),
    cs.length ≤ n → cs.length ≤ m → subAux x n b cs = subAux x m b cs := by
  intro n
  induction n with
  | zero =>
    intro m b cs hn hm
    have hcs : cs = [] := by
      cases cs with
      | nil => rfl
      | cons c cs' => simp at hn
    subst hcs
    cases m <;> cases b <;> rfl
  | succ n ih =>
    intro m b cs hn hm
    cases cs with
    | nil => cases m <;> cases b <;> rfl
    | cons c cs' =>
      cases m with
      | zero => simp at hm
      | succ m =>
        have hn' : cs'.length ≤ n := by
          simp at hn
          omega
        have hm' : cs'.length ≤ m := by
          simp at hm
          omega
        cases b with
        | false =>
          show c :: subAux x n (decide (c = '\n')) cs' =
            c :: subAux x m (decide (c = '\n')) cs'
          rw [ih m _ cs' hn' hm']
        | true =>
          cases hmv : matchVer (c :: cs') with
          | some p =>
            rcases p with ⟨v, af⟩
            have haf : af.length < cs'.length + 1 :=
              List.length_cons c cs' ▸ matchVer_length _ _ _ hmv
            show (match matchVer (c :: cs') with
              | some (_, after) => verPre ++ x ++ '"' :: subAux x n false after
              | none => c :: subAux x n (decide (c = '\n')) cs') =
              (match matchVer (c :: cs') with
              | some (_, after) => verPre ++ x ++ '"' :: subAux x m false after
              | none => c :: subAux x m (decide (c = '\n')) cs')
            rw [hmv]
            simp only []
            rw [ih m false af (by omega) (by omega)]
          | none =>
            show (match matchVer (c :: cs') with
              | some (_, after) => verPre ++ x ++ '"' :: subAux x n false after
              | none => c :: subAux x n (decide (c = '\n')) cs') =
              (match matchVer (c :: cs') with
              | some (_, after) => verPre ++ x ++ '"' :: subAux x m false after
              | none => c :: subAux x m (decide (c = '\n')) cs')
            rw [hmv]
            simp only []
            rw [ih m _ cs' hn' hm']

theorem subF_nil (x : List Char) (b : Bool) : subF x b [] = [] := rfl

theorem subF_false_cons (x : List Char) (c : Char) (cs : List Char) :
    subF x false (c :: cs) = c :: subF x (decide (c = '\n')) cs := rfl

theorem subF_true_match (x : List Char) (c0 : Char) (cs v after : List Char)
    (hm : matchVer (c0 :: cs) = some (v, after)) :
    subF x true (c0 :: cs) = verPre ++ x ++ '"' :: subF x false after := by
  have haf : after.length ≤ cs.length := by
    have := matchVer_length _ _ _ hm
    simp at this
    omega
  show (match matchVer (c0 :: cs) with
    | some (_, a) => verPre ++ x ++ '"' :: subAux x cs.length false a
    | none => c0 :: subAux x cs.length (decide (c0 = '\n')) cs) = _
  rw [hm]
  simp only []
  rw [subAux_fuel x cs.length after.length false after haf (le_refl _)]
  rfl

theorem subF_true_none (x : List Char) (c0 : Char) (cs : List Char)
    (hm : matchVer (c0 :: cs) = none) :
    subF x true (c0 :: cs) = c0 :: subF x (decide (c0 = '\n')) cs := by
  show (match matchVer (c0 :: cs) with
    | some (_, a) => verPre ++ x ++ '"' :: subAux x cs.length false a
    | none => c0 :: subAux x cs.length (decide (c0 = '\n')) cs) = _
  rw [hm]
  rfl

theorem subF_false_nonl (x : List Char) (a : List Char) (ha : '\n' ∉ a) :
    subF x false a = a := by
  induction a with
  | nil => rfl
  | cons c a' ih =>
    rw [subF_false_cons]
    have hc : decide (c = '\n') = false :=
      decide_eq_false (fun hcc => ha (by simp [hcc]))
    rw [hc, ih (fun hmem => ha (List.mem_cons_of_mem _ hmem))]

theorem subF_false_copy (x : List Char) (a b : List Char) (ha : '\n' ∉ a) :
    subF x false (a ++ '\n' :: b) = a ++ '\n' :: subF x true b := by
  induction a with
  | nil => rfl
  | cons c a' ih =>
    have hc : decide (c = '\n') = false :=
      decide_eq_false (fun hcc => ha (by simp [hcc]))
    rw [List.cons_append, subF_false_cons, hc,
      ih (fun hmem => ha (List.mem_cons_of_mem _ hmem))]
    rfl

theorem splitOnChar_ne_nil (sep : Char) (cs : List Char) :
    splitOnChar sep cs ≠ [] := by
  cases cs with
  | nil => simp [splitOnChar]
  | cons c cs' =>
    unfold splitOnChar
    by_cases h : c = sep
    · simp [h]
    · simp only [if_neg h]
      split <;> simp

theorem splitOnChar_nosep (sep : Char) (cs : List Char) (h : sep ∉ cs) :
    splitOnChar sep cs = [cs] := by
  induction cs with
  | nil => rfl
  | cons c cs' ih =>
    have hc : ¬(c = sep) := fun hh => h (by simp [hh])
    simp only [splitOnChar, if_neg hc,
      ih (fun hm => h (List.mem_cons_of_mem _ hm))]

theorem splitOnChar_append (sep : Char) (a b : List Char) (ha : sep ∉ a) :
    splitOnChar sep (a ++ sep :: b) = a :: splitOnChar sep b := by
  induction a with
  | nil => simp [splitOnChar]
  | cons c a' ih =>
    have hc : ¬(c = sep) := fun hh => ha (by simp [hh])
    rw [List.cons_append]
    simp only [splitOnChar, if_neg hc,
      ih (fun hm => ha (List.mem_cons_of_mem _ hm))]

theorem exists_split_first (sep : Char) (cs : List Char) :
    sep ∉ cs ∨ ∃ a b, cs = a ++ sep :: b ∧ sep ∉ a := by
  induction cs with
  | nil => exact Or.inl (by simp)
  | cons c cs' ih =>
    by_cases hc : c = sep
    · subst hc
      exact Or.inr ⟨[], cs', rfl, by simp⟩
    · rcases ih with h | ⟨a, b, rfl, hna⟩
      · refine Or.inl ?_
        intro hmem
        rcases List.mem_cons.mp hmem with heq | hmem'
        · exact hc heq.symm
        · exact h hmem'
      · refine Or.inr ⟨c :: a, b, by simp, ?_⟩
        intro hmem
        rcases List.mem_cons.mp hmem with heq | hmem'
        · exact hc heq.symm
        · exact hna hmem'

theorem joinLines_cons (l : List Char) (ls : List (List Char)) (h : ls ≠ []) :
    joinLines (l :: ls) = l ++ '\n' :: joinLines ls := by
  cases ls with
  | nil => exact absurd rfl h
  | cons g gs => rfl

theorem stripPre_nonl (cs : List Char) (h : '\n' ∉ cs) :
    stripPre cs = stripPreAux cs := by
  unfold stripPre
  rw [splitOnChar_nosep _ _ h]
  rfl

theorem stripPre_append (t : List Char) (ht : '\n' ∉ t) :
    ∀ (n : Nat) (cs : List Char), cs.length ≤ n →
    stripPre (cs ++ '-' :: 'p' :: 'r' :: 'e' :: t) = stripPre cs := by
  intro n
  induction n with
  | zero =>
    intro cs hlen
    have hcs : cs = [] := by
      cases cs with
      | nil => rfl
      | cons c cs' => simp at hlen
    subst hcs
    rw [List.nil_append]
    have hnl : '\n' ∉ '-' :: 'p' :: 'r' :: 'e' :: t := by
      intro hm
      rcases List.mem_cons.mp hm with h1 | hm1
      · exact absurd h1 (by decide)
      rcases List.mem_cons.mp hm1 with h1 | hm2
      · exact absurd h1 (by decide)
      rcases List.mem_cons.mp hm2 with h1 | hm3
      · exact absurd h1 (by decide)
      rcases List.mem_cons.mp hm3 with h1 | hm4
      · exact absurd h1 (by decide)
      · exact ht hm4
    rw [stripPre_nonl _ hnl]
    have hs : startsWithPre ('-' :: 'p' :: 'r' :: 'e' :: t) = true := rfl
    simp [stripPreAux, hs, stripPre]
    rfl
  | succ n ih =>
    intro cs hlen
    rcases exists_split_first '\n' cs with hno | ⟨a, b, rfl, hna⟩
    · have happ : '\n' ∉ cs ++ '-' :: 'p' :: 'r' :: 'e' :: t := by
        intro hm
        rcases List.mem_append.mp hm with hm1 | hm2
        · exact hno hm1
        rcases List.mem_cons.mp hm2 with h1 | hm3
        · exact absurd h1 (by decide)
        rcases List.mem_cons.mp hm3 with h1 | hm4
        · exact absurd h1 (by decide)
        rcases List.mem_cons.mp hm4 with h1 | hm5
        · exact absurd h1 (by decide)
        rcases List.mem_cons.mp hm5 with h1 | hm6
        · exact absurd h1 (by decide)
        · exact ht hm6
      rw [stripPre_nonl _ happ, stripPre_nonl _ hno, stripPreAux_append]
    · have hb : b.length ≤ n := by
        simp at hlen
        omega
      rw [show (a ++ '\n' :: b) ++ '-' :: 'p' :: 'r' :: 'e' :: t =
        a ++ '\n' :: (b ++ '-' :: 'p' :: 'r' :: 'e' :: t) from by simp]
      unfold stripPre
      rw [splitOnChar_append _ _ _ hna, splitOnChar_append _ _ _ hna]
      rw [List.map_cons, List.map_cons]
      have hm1 : (splitOnChar '\n'
          (b ++ '-' :: 'p' :: 'r' :: 'e' :: t)).map stripPreAux ≠ [] := by
        intro h0
        exact splitOnChar_ne_nil _ _ (List.map_eq_nil_iff.mp h0)
      have hm2 : (splitOnChar '\n' b).map stripPreAux ≠ [] := by
        intro h0
        exact splitOnChar_ne_nil _ _ (List.map_eq_nil_iff.mp h0)
      rw [joinLines_cons _ _ hm1, joinLines_cons _ _ hm2]
      have hih := ih b hb
      unfold stripPre at hih
      rw [hih]

theorem version_ints_pre_suffix (v t : String) (ht : '\n' ∉ t.data) :
    version_ints (v ++ "-pre" ++ t) = version_ints v := by
  unfold version_ints
  have hdata : (v ++ "-pre" ++ t).data =
      v.data ++ '-' :: 'p' :: 'r' :: 'e' :: t.data := by
    simp [String.data_append]
  rw [hdata, stripPre_append t.data ht v.data.length v.data (le_refl _)]

theorem readFirstL_cons_newline (u : List Char) :
    readFirstL ('\n' :: u) = readFirstL u := by
  unfold readFirstL
  rw [show splitOnChar '\n' ('\n' :: u) = [] :: splitOnChar '\n' u from rfl]
  rw [List.findSome?_cons]
  rfl

theorem readFirstL_single (cs : List Char) (h : '\n' ∉ cs) :
    readFirstL cs = lineVersion cs := by
  unfold readFirstL
  rw [splitOnChar_nosep _ _ h, List.findSome?_cons]
  cases hl : lineVersion cs <;> rfl

theorem readFirstL_line_append_none (ln u : List Char) (h : '\n' ∉ ln)
    (hl : lineVersion ln = none) :
    readFirstL (ln ++ '\n' :: u) = readFirstL u := by
  unfold readFirstL
  rw [splitOnChar_append _ _ _ h, List.findSome?_cons, hl]

theorem readFirstL_line_append_some (ln u : List Char) (v : List Char)
    (h : '\n' ∉ ln) (hl : lineVersion ln = some v) :
    readFirstL (ln ++ '\n' :: u) = some v := by
  unfold readFirstL
  rw [splitOnChar_append _ _ _ h, List.findSome?_cons, hl]

theorem quote_dropWhile (r : List Char) (h : '"' ∈ r) :
    ∃ r', r.dropWhile (fun c => c != '"') = '"' :: r' := by
  induction r with
  | nil => simp at h
  | cons c r0 ih =>
    by_cases hc : c = '"'
    · subst hc
      exact ⟨r0, by rw [List.dropWhile_cons]; simp⟩
    · rcases List.mem_cons.mp h with heq | hm
      · exact absurd heq.symm hc
      · obtain ⟨r', hr'⟩ := ih hm
        refine ⟨r', ?_⟩
        rw [List.dropWhile_cons, if_pos (by simpa using hc), hr']

theorem matchVer_none_extend (ln u : List Char) (hok : okLine ln = true)
    (hnone : matchVer ln = none) : matchVer (ln ++ '\n' :: u) = none := by
  unfold okLine at hok
  cases hdl : dropLit verPre ln with
  | none =>
    cases hdl2 : dropLit verPre (ln ++ '\n' :: u) with
    | none =>
      unfold matchVer
      rw [hdl2]
    | some r2 =>
      exfalso
      have heq := (dropLit_some _ _ _).mp hdl2
      rcases List.append_eq_append_iff.mp heq with ⟨a', ha1, ha2⟩ | ⟨c', hc1, hc2⟩
      · cases a' with
        | nil =>
          have hlv : ln = verPre ++ [] := by
            simp at ha1
            simp [ha1]
          have : dropLit verPre ln = some [] := (dropLit_some _ _ _).mpr hlv
          rw [this] at hdl
          exact Option.noConfusion hdl
        | cons y a'' =>
          injection ha2 with hy _
          have : '\n' ∈ verPre := by
            rw [ha1, ← hy]
            simp
          exact absurd this (by decide)
      · have : dropLit verPre ln = some c' := (dropLit_some _ _ _).mpr hc1
        rw [this] at hdl
        exact Option.noConfusion hdl
  | some r =>
    rw [hdl] at hok
    have hq : '"' ∈ r := by
      rcases List.any_eq_true.mp hok with ⟨c, hc, hcq⟩
      have hcc : c = '"' := of_decide_eq_true hcq
      exact hcc ▸ hc
    obtain ⟨r', hr'⟩ := quote_dropWhile r hq
    have hemp : r.takeWhile (fun c => c != '"') = [] := by
      by_contra hne
      have hr2 : r = (r.takeWhile (fun c => c != '"')) ++ '"' :: r' := by
        rw [← hr', List.takeWhile_append_dropWhile]
      have hsome : matchVer ln = some (r.takeWhile (fun c => c != '"'), r') := by
        rw [matchVer_some]
        refine ⟨?_, hne, ?_⟩
        · rw [(dropLit_some _ _ _).mp hdl]
          conv_lhs => rw [hr2]
          simp
        · intro c hc
          simpa using takeWhile_mem hc
      rw [hsome] at hnone
      exact Option.noConfusion hnone
    have hrq : ∃ r0, r = '"' :: r0 := by
      cases hcr : r with
      | nil =>
        subst hcr
        simp at hq
      | cons c r0 =>
        subst hcr
        rw [List.takeWhile_cons] at hemp
        by_cases hpc : (c != '"') = true
        · rw [if_pos hpc] at hemp
          simp at hemp
        · have : c = '"' := by simpa using hpc
          exact ⟨r0, by rw [this]⟩
    obtain ⟨r0, rfl⟩ := hrq
    have hlneq : ln ++ '\n' :: u = verPre ++ ('"' :: (r0 ++ '\n' :: u)) := by
      rw [(dropLit_some _ _ _).mp hdl]
      simp
    unfold matchVer
    rw [(dropLit_some verPre (ln ++ '\n' :: u) _).mpr hlneq]
    rfl

theorem readFirst_written (x t : List Char) (hx1 : x ≠ [])
    (hx2 : ∀ c ∈ x, c ≠ '"') (hx3 : '\n' ∉ x) :
    readFirstL (verPre ++ x ++ '"' :: t) = some x := by
  have hvp : '\n' ∉ verPre := by decide
  rcases exists_split_first '\n' t with hno | ⟨t1, t2, rfl, hnt1⟩
  · have hall : '\n' ∉ verPre ++ x ++ '"' :: t := by
      intro hm
      rcases List.mem_append.mp hm with hm1 | hm2
      · rcases List.mem_append.mp hm1 with hm1a | hm1b
        · exact hvp hm1a
        · exact hx3 hm1b
      · rcases List.mem_cons.mp hm2 with heq | hm2'
        · exact absurd heq (by decide)
        · exact hno hm2'
    rw [readFirstL_single _ hall]
    unfold lineVersion
    rw [show matchVer (verPre ++ x ++ '"' :: t) = some (x, t) from
      (matchVer_some _ _ _).mpr ⟨rfl, hx1, hx2⟩]
    rfl
  · have hline : '\n' ∉ verPre ++ x ++ '"' :: t1 := by
      intro hm
      rcases List.mem_append.mp hm with hm1 | hm2
      · rcases List.mem_append.mp hm1 with hm1a | hm1b
        · exact hvp hm1a
        · exact hx3 hm1b
      · rcases List.mem_cons.mp hm2 with heq | hm2'
        · exact absurd heq (by decide)
        · exact hnt1 hm2'
    rw [show verPre ++ x ++ '"' :: (t1 ++ '\n' :: t2) =
      (verPre ++ x ++ '"' :: t1) ++ '\n' :: t2 by simp]
    exact readFirstL_line_append_some _ _ _ hline (by
      unfold lineVersion
      rw [show matchVer (verPre ++ x ++ '"' :: t1) = some (x, t1) from
        (matchVer_some _ _ _).mpr ⟨rfl, hx1, hx2⟩]
      rfl)

theorem readFirst_subF (x : List Char) (hx1 : x ≠ [])
    (hx2 : ∀ c ∈ x, c ≠ '"') (hx3 : '\n' ∉ x) :
    ∀ (n : Nat) (cs : List Char), cs.length ≤ n → readFirstL cs ≠ none →
      readFirstL (subF x true cs) = some x := by
  intro n
  induction n with
  | zero =>
    intro cs hlen hne
    have hcs : cs = [] := by
      cases cs with
      | nil => rfl
      | cons c cs' => simp at hlen
    subst hcs
    exact absurd rfl hne
  | succ n ih =>
    intro cs hlen hne
    cases cs with
    | nil => exact absurd rfl hne
    | cons c cs' =>
      cases hm : matchVer (c :: cs') with
      | some p =>
        rcases p with ⟨v, af⟩
        rw [subF_true_match x c cs' v af hm]
        exact readFirst_written x _ hx1 hx2 hx3
      | none =>
        rw [subF_true_none x c cs' hm]
        by_cases hcnl : c = '\n'
        · subst hcnl
          rw [show decide (('\n' : Char) = '\n') = true from rfl]
          rw [readFirstL_cons_newline] at hne
          rw [readFirstL_cons_newline]
          exact ih cs' (by simp at hlen; omega) hne
        · rw [show decide (c = '\n') = false from decide_eq_false hcnl]
          rcases exists_split_first '\n' cs' with hno | ⟨a, b, rfl, hna⟩
          · rw [subF_false_nonl x cs' hno]
            exfalso
            apply hne
            have hnocs : '\n' ∉ c :: cs' := by
              intro hmem
              rcases List.mem_cons.mp hmem with heq | hm2
              · exact hcnl heq.symm
              · exact hno hm2
            rw [readFirstL_single _ hnocs]
            unfold lineVersion
            rw [hm]
            rfl
          · rw [subF_false_copy x a b hna]
            have hlineN : lineVersion (c :: a) = none := by
              cases hlv : matchVer (c :: a) with
              | none =>
                unfold lineVersion
                rw [hlv]
                rfl
              | some p =>
                exfalso
                rcases p with ⟨v0, a0⟩
                have hext := matchVer_append _ _ _ ('\n' :: b) hlv
                rw [show (c :: a) ++ '\n' :: b = c :: (a ++ '\n' :: b)
                  from rfl] at hext
                rw [hm] at hext
                exact Option.noConfusion hext
            have hnocA : '\n' ∉ c :: a := by
              intro hmem
              rcases List.mem_cons.mp hmem with heq | hm2
              · exact hcnl heq.symm
              · exact hna hm2
            rw [show c :: (a ++ '\n' :: subF x true b) =
              (c :: a) ++ '\n' :: subF x true b from rfl]
            rw [readFirstL_line_append_none _ _ hnocA hlineN]
            rw [show c :: (a ++ '\n' :: b) = (c :: a) ++ '\n' :: b from rfl] at hne
            rw [readFirstL_line_append_none _ _ hnocA hlineN] at hne
            apply ih b ?_ hne
            simp at hlen
            omega

theorem set_version_ok_inv (version : String) (s s' : St)
    (h : set_version version false s = (s', .ok ())) :
    (∃ versions, readVersions (build_files s.tree) = .ok versions) ∧
    s' = { s with tree := s.tree.map (fun f =>
      if isBuildFilename f.1 then (f.1, subVersion version f.2) else f) } := by
  unfold set_version at h
  split at h
  next e0 heq => simp at h
  next versions heq =>
    split at h
    next => simp at h
    next v vs =>
      split at h
      next hd => simp at h
      next hd =>
        split at h
        next hvo => simp at h
        next oi hvo =>
          split at h
          next hvn => simp at h
          next ni hvn =>
            by_cases hok :
                (if hasPre v then listLe oi ni else listLt oi ni) = true
            · simp only [hok] at h
              simp at h
              exact ⟨⟨v :: vs, heq⟩, h.symm⟩
            · simp only [eq_false_of_ne_true hok] at h
              simp at h

theorem readVersions_ok_mem (files : List (String × String))
    (versions : List String) (h : readVersions files = .ok versions) :
    ∀ f ∈ files, ∃ v, get_version_from_build f.1 f.2 = .ok v := by
  induction files generalizing versions with
  | nil =>
    intro f hf
    simp at hf
  | cons g fs ih =>
    intro f hf
    unfold readVersions at h
    cases hg : get_version_from_build g.1 g.2 with
    | error e =>
      rw [hg] at h
      simp at h
    | ok v =>
      rw [hg] at h
      cases hrest : readVersions fs with
      | error e =>
        rw [hrest] at h
        simp at h
      | ok vs =>
        rcases List.mem_cons.mp hf with rfl | hf'
        · exact ⟨v, hg⟩
        · exact ih vs hrest f hf'

theorem map_congr_mem {α β : Type} (l : List α) (f g : α → β)
    (h : ∀ a ∈ l, f a = g a) : l.map f = l.map g := by
  induction l with
  | nil => rfl
  | cons a l ih =>
    simp only [List.map_cons, h a (by simp),
      ih (fun b hb => h b (by simp [hb]))]

theorem build_files_map_rewrite (tree : List (String × String))
    (version : String) :
    build_files (tree.map (fun f =>
      if isBuildFilename f.1 then (f.1, subVersion version f.2) else f)) =
    (build_files tree).map (fun f => (f.1, subVersion version f.2)) := by
  unfold build_files
  rw [List.filter_map]
  have hfil : tree.filter (fun f => isBuildFilename
      ((fun f => if isBuildFilename f.1 then (f.1, subVersion version f.2)
        else f) f).1) = tree.filter (fun f => isBuildFilename f.1) := by
    apply List.filter_congr
    intro f _
    show isBuildFilename (if isBuildFilename f.1 = true
      then (f.1, subVersion version f.2) else f).1 = isBuildFilename f.1
    by_cases hb : isBuildFilename f.1 = true
    · rw [if_pos hb]
    · rw [if_neg hb]
  rw [show (fun f => isBuildFilename f.1) ∘ (fun f =>
      if isBuildFilename f.1 then (f.1, subVersion version f.2) else f) =
      (fun f => isBuildFilename ((fun f => if isBuildFilename f.1
        then (f.1, subVersion version f.2) else f) f).1) from rfl, hfil]
  apply map_congr_mem
  intro f hf
  have hb : isBuildFilename f.1 = true := (List.mem_filter.mp hf).2
  rw [if_pos hb]

theorem get_version_ok_readFirst (fn contents v : String)
    (h : get_version_from_build fn contents = .ok v) :
    readFirstL contents.data = some v.data := by
  unfold get_version_from_build at h
  cases hr : readFirstL contents.data with
  | none =>
    rw [hr] at h
    simp at h
  | some w =>
    rw [hr] at h
    simp at h
    rw [← h]

theorem stripPre_sufPre (cs : List Char) : stripPreAux cs ++ sufPre cs = cs := by
  induction cs with
  | nil => rfl
  | cons c cs' ih =>
    by_cases h : startsWithPre (c :: cs') = true
    · simp [stripPreAux, sufPre, h]
    · have h' := eq_false_of_ne_true h
      simp [stripPreAux, sufPre, h', ih]

theorem split_all_digits (cs : List Char)
    (h : ∀ g ∈ splitOnChar '.' cs, g.all Char.isDigit = true) :
    ∀ c ∈ cs, c = '.' ∨ c.isDigit = true := by
  induction cs with
  | nil => simp
  | cons c0 cs' ih =>
    intro c hc
    by_cases hsep : c0 = '.'
    · subst hsep
      have hrest : ∀ g ∈ splitOnChar '.' cs', g.all Char.isDigit = true := by
        intro g hg
        apply h
        rw [show splitOnChar '.' ('.' :: cs') = [] :: splitOnChar '.' cs'
          from rfl]
        exact List.mem_cons_of_mem _ hg
      rcases List.mem_cons.mp hc with rfl | hc'
      · exact Or.inl rfl
      · exact ih hrest c hc'
    · rcases hsp : splitOnChar '.' cs' with _ | ⟨g, gs⟩
      · exact absurd hsp (splitOnChar_ne_nil _ _)
      · have hsplit : splitOnChar '.' (c0 :: cs') = (c0 :: g) :: gs := by
          simp only [splitOnChar, if_neg hsep, hsp]
        have hhead : ((c0 :: g).all Char.isDigit) = true := by
          apply h
          rw [hsplit]
          exact List.mem_cons_self _ _
        have hc0g := List.all_eq_true.mp hhead
        have hg' : ∀ g' ∈ splitOnChar '.' cs', g'.all Char.isDigit = true := by
          intro g' hg'
          rw [hsp] at hg'
          rcases List.mem_cons.mp hg' with rfl | hgs
          · exact List.all_eq_true.mpr
              (fun a ha => hc0g a (List.mem_cons_of_mem _ ha))
          · apply h
            rw [hsplit]
            exact List.mem_cons_of_mem _ hgs
        rcases List.mem_cons.mp hc with rfl | hc'
        · exact Or.inr (hc0g c (List.mem_cons_self _ _))
        · exact ih hg' c hc'

theorem valid_chars (x : String) (h : ValidVersionString x = true) :
    x.data ≠ [] ∧ (∀ c ∈ x.data, c ≠ '"') ∧ '\n' ∉ x.data := by
  unfold ValidVersionString at h
  rcases Bool.and_eq_true_iff.mp h with ⟨hcore, hsuf⟩
  have hstrip : ∀ c ∈ stripPreAux x.data, c = '.' ∨ c.isDigit = true := by
    apply split_all_digits
    intro g hg
    unfold ValidVersionCore at hcore
    have hgg := (List.all_eq_true.mp hcore) g hg
    rcases Bool.and_eq_true_iff.mp hgg with ⟨-, hd⟩
    exact hd
  have hsuffix : ∀ c ∈ sufPre x.data,
      c = '-' ∨ c = 'p' ∨ c = 'r' ∨ c = 'e' ∨ c.isDigit = true := by
    intro c hc
    rcases Bool.or_eq_true_iff.mp hsuf with hnil | hdl
    · rw [of_decide_eq_true hnil] at hc
      simp at hc
    · cases hdlc : dropLit ['-', 'p', 'r', 'e'] (sufPre x.data) with
      | none =>
        rw [hdlc] at hdl
        simp at hdl
      | some ds =>
        rw [hdlc] at hdl
        have hsp := (dropLit_some _ _ _).mp hdlc
        rw [hsp] at hc
        rcases Bool.and_eq_true_iff.mp hdl with ⟨-, hds⟩
        rcases List.mem_append.mp hc with hc1 | hc2
        · simp at hc1
          rcases hc1 with rfl | rfl | rfl | rfl
          · exact Or.inl rfl
          · exact Or.inr (Or.inl rfl)
          · exact Or.inr (Or.inr (Or.inl rfl))
          · exact Or.inr (Or.inr (Or.inr (Or.inl rfl)))
        · exact Or.inr (Or.inr (Or.inr (Or.inr
            ((List.all_eq_true.mp hds) c hc2))))
  have hsne : stripPreAux x.data ≠ [] := by
    intro h0
    unfold ValidVersionCore at hcore
    rw [h0] at hcore
    exact absurd hcore (by decide)
  refine ⟨?_, ?_, ?_⟩
  · intro h0
    apply hsne
    rw [h0]
    rfl
  · intro c hc
    rw [← stripPre_sufPre x.data] at hc
    rcases List.mem_append.mp hc with hc1 | hc2
    · rcases hstrip c hc1 with rfl | hd
      · decide
      · intro heq
        rw [heq] at hd
        exact absurd hd (by decide)
    · rcases hsuffix c hc2 with rfl | rfl | rfl | rfl | hd
      · decide
      · decide
      · decide
      · decide
      · intro heq
        rw [heq] at hd
        exact absurd hd (by decide)
  · intro hc
    rw [← stripPre_sufPre x.data] at hc
    rcases List.mem_append.mp hc with hc1 | hc2
    · rcases hstrip '\n' hc1 with heq | hd
      · exact absurd heq (by decide)
      · exact absurd hd (by decide)
    · rcases hsuffix '\n' hc2 with heq | heq | heq | heq | hd
      · exact absurd heq (by decide)
      · exact absurd heq (by decide)
      · exact absurd heq (by decide)
      · exact absurd heq (by decide)
      · exact absurd hd (by decide)

theorem matchVer_line_of_whole (ln u v af : List Char) (hok : okLine ln = true)
    (hm : matchVer (ln ++ '\n' :: u) = some (v, af)) :
    ∃ ai, matchVer ln = some (v, ai) ∧ af = ai ++ '\n' :: u := by
  cases hml : matchVer ln with
  | none =>
    exfalso
    rw [matchVer_none_extend ln u hok hml] at hm
    exact Option.noConfusion hm
  | some p =>
    rcases p with ⟨v0, a0⟩
    have hext := matchVer_append _ _ _ ('\n' :: u) hml
    rw [hm] at hext
    injection hext with h2
    injection h2 with hv ha
    have hgoal : (some (v0, a0) : Option (List Char × List Char)) =
        some (v, a0) := by
      rw [hv]
    exact ⟨a0, hgoal, ha⟩

theorem subF_per_line (x : List Char) : ∀ (n : Nat) (cs : List Char),
    cs.length ≤ n →
    (∀ l ∈ splitOnChar '\n' cs, okLine l = true) →
    subF x true cs = joinLines ((splitOnChar '\n' cs).map (rewriteLine x)) := by
  intro n
  induction n with
  | zero =>
    intro cs hlen hok
    have hcs : cs = [] := by
      cases cs with
      | nil => rfl
      | cons c cs' => simp at hlen
    subst hcs
    rfl
  | succ n ih =>
    intro cs hlen hok
    cases cs with
    | nil => rfl
    | cons c cs' =>
      rcases exists_split_first '\n' (c :: cs') with hno | ⟨a, b, heq, hna⟩
      · have hsplit := splitOnChar_nosep '\n' (c :: cs') hno
        rw [hsplit]
        rw [show joinLines (([c :: cs'].map (rewriteLine x))) =
          rewriteLine x (c :: cs') from rfl]
        cases hm : matchVer (c :: cs') with
        | none =>
          rw [subF_true_none x c cs' hm]
          have hcn : decide (c = '\n') = false :=
            decide_eq_false (fun hh => hno (by simp [hh]))
          rw [hcn, subF_false_nonl x cs'
            (fun hh => hno (List.mem_cons_of_mem _ hh))]
          unfold rewriteLine
          rw [hm]
        | some p =>
          rcases p with ⟨v, af⟩
          rw [subF_true_match x c cs' v af hm]
          have hdec := (matchVer_some _ _ _).mp hm
          have haf : '\n' ∉ af := by
            intro hmem
            apply hno
            rw [hdec.1]
            simp [hmem]
          rw [subF_false_nonl x af haf]
          unfold rewriteLine
          rw [hm]
      · have hsplit : splitOnChar '\n' (c :: cs') = a :: splitOnChar '\n' b := by
          rw [heq]
          exact splitOnChar_append _ _ _ hna
        have hokA : okLine a = true := hok a (by
          rw [hsplit]
          exact List.mem_cons_self _ _)
        have hokB : ∀ l ∈ splitOnChar '\n' b, okLine l = true := by
          intro l hl
          apply hok
          rw [hsplit]
          exact List.mem_cons_of_mem _ hl
        have hlenb : b.length ≤ n := by
          have hlg := congrArg List.length heq
          simp at hlg
          simp at hlen
          omega
        have hmapne : (splitOnChar '\n' b).map (rewriteLine x) ≠ [] := by
          intro h0
          exact splitOnChar_ne_nil '\n' b (List.map_eq_nil_iff.mp h0)
        rw [hsplit, List.map_cons, joinLines_cons _ _ hmapne,
          ← ih b hlenb hokB]
        cases hm : matchVer (c :: cs') with
        | some p =>
          rcases p with ⟨v, af⟩
          rw [subF_true_match x c cs' v af hm]
          have hm' : matchVer (a ++ '\n' :: b) = some (v, af) := by
            rw [← heq]
            exact hm
          obtain ⟨ai, hml, rfl⟩ := matchVer_line_of_whole a b v af hokA hm'
          have hai : '\n' ∉ ai := by
            have hd := (matchVer_some _ _ _).mp hml
            intro hmem
            apply hna
            rw [hd.1]
            simp [hmem]
          rw [subF_false_copy x ai b hai]
          unfold rewriteLine
          rw [hml]
          simp [List.append_assoc]
        | none =>
          have hm' : matchVer (a ++ '\n' :: b) = none := by
            rw [← heq]
            exact hm
          have hml : matchVer a = none := by
            cases hml2 : matchVer a with
            | none => rfl
            | some p =>
              rcases p with ⟨v0, a0⟩
              have hext := matchVer_append _ _ _ ('\n' :: b) hml2
              rw [hm'] at hext
              exact Option.noConfusion hext
          rw [subF_true_none x c cs' hm]
          cases a with
          | nil =>
            injection heq with h1 h2
            subst h1
            subst h2
            rw [show decide (('\n' : Char) = '\n') = true from rfl]
            unfold rewriteLine
            rw [hml]
            rfl
          | cons c0 a' =>
            injection heq with h1 h2
            subst h1
            subst h2
            have hc0 : decide (c = '\n') = false :=
              decide_eq_false (fun hh => hna (by simp [hh]))
            rw [hc0]
            show c :: subF x false (a' ++ '\n' :: b) =
              rewriteLine x (c :: a') ++ '\n' :: subF x true b
            rw [subF_false_copy x a' b
              (fun hh => hna (List.mem_cons_of_mem _ hh))]
            unfold rewriteLine
            rw [hml]
            rfl

theorem commit_version_bump_ok (exec : List String → Bool) (v a : String)
    (s s' : St) (h : commit_version_bump exec v a false s = (s', .ok ())) :
    s'.tree = s.tree ∧
    ∃ adds : List (List String),
      (∀ c ∈ adds, c.take 2 = ["git", "add"]) ∧
      s'.commands = s.commands ++ adds ++
        [["git", "commit", "-m", VERSION_BUMP_COMMIT_TEMPLATE v a]] := by
  unfold commit_version_bump at h
  have hr := runAll_ok _ _ _ _ h
  refine ⟨hr.1, (build_files s.tree).map (fun f => ["git", "add", f.1]), ?_, ?_⟩
  · intro c hc
    rcases List.mem_map.mp hc with ⟨f, hf, rfl⟩
    rfl
  · rw [hr.2]
    simp [List.append_assoc]

/-! ### Claim theorems -/

/-- C2: after the publish step, do_release computes the next version by
taking the released version's numeric tuple (pre-release suffix
stripped), incrementing the last component, joining with '.', and
appending "-pre1"; releasing "0.1.10" yields nextVersion "0.1.11-pre1",
which is then written to the build files and committed. -/
theorem next_version_after_publish :
    (∀ version_i : List Int,
      next_version_of version_i =
        String.intercalate "." ((incLast version_i).map toString) ++ "-pre1")
  ∧ version_ints "0.1.10" = some [0, 1, 10]
  ∧ incLast [0, 1, 10] = [0, 1, 11]
  ∧ next_version_of [0, 1, 10] = "0.1.11-pre1"
  ∧ do_release (fun _ => true) "0.1.10" "alice" false
      ⟨[("./build.gradle.kts", "version = \"0.1.9\"\n")], []⟩ =
    (⟨[("./build.gradle.kts", "version = \"0.1.11-pre1\"\n")],
      [["git", "add", "./build.gradle.kts"],
       ["git", "commit", "-m", VERSION_BUMP_COMMIT_TEMPLATE "0.1.10" "alice"],
       ["git", "tag", "v0.1.10"],
       ["git", "push"], ["git", "push", "--tags"],
       ["./gradlew", "publish"],
       ["git", "add", "./build.gradle.kts"],
       ["git", "commit", "-m", VERSION_BUMP_COMMIT_TEMPLATE "0.1.11-pre1" "alice"],
       ["git", "push"], ["git", "push", "--tags"]]⟩,
      .ok ()) :=
  ⟨fun _ => rfl, by decide, by decide, by decide, by decide⟩

/-- C3: whenever the build files report more than one distinct version,
set_version fails with InvalidVersionError listing the versions found,
and the state (in particular every build file's contents) is unchanged. -/
theorem inconsistent_versions_no_write (version : String) (dry : Bool)
    (s : St) (versions : List String)
    (hread : readVersions (build_files s.tree) = .ok versions)
    (hlen : 2 ≤ (distinct versions).length) :
    set_version version dry s = (s, .error (.inconsistentVersions versions)) := by
  unfold set_version
  rw [hread]
  cases versions with
  | nil => simp [distinct] at hlen
  | cons v vs =>
    have hne : (distinct (v :: vs)).length ≠ 1 := by omega
    simp only [if_pos hne]

/-- Witness for C3 at a concrete two-file tree reporting 1.0 and 1.1. -/
theorem inconsistent_versions_no_write_witness :
    set_version "2.0" false
      ⟨[("./build.gradle.kts", "version = \"1.0\"\n"),
        ("./sub/build.gradle.kts", "version = \"1.1\"\n")], []⟩ =
    (⟨[("./build.gradle.kts", "version = \"1.0\"\n"),
       ("./sub/build.gradle.kts", "version = \"1.1\"\n")], []⟩,
      .error (.inconsistentVersions ["1.0", "1.1"])) :=
  inconsistent_versions_no_write "2.0" false _ ["1.0", "1.1"] (by decide)
    (by decide)

/-- C4: with the dry-run flag set, every operation leaves the working
tree and the executed-command ledger exactly as they were; operations
that cannot fail in dry-run mode return success outright, and the two
that can still fail (set_version and do_release, on validation errors)
also leave the state untouched. -/
theorem dry_run_pure (exec : List String → Bool) (version auditors : String)
    (command : List String) (s : St) :
    run_command exec command true s = (s, .ok ())
  ∧ (set_version version true s).1 = s
  ∧ commit_version_bump exec version auditors true s = (s, .ok ())
  ∧ make_tag exec version true s = (s, .ok ())
  ∧ git_push exec true s = (s, .ok ())
  ∧ do_publish exec true s = (s, .ok ())
  ∧ (do_release exec version auditors true s).1 = s :=
  ⟨rfl, set_version_dry_fst _ _, commit_version_bump_dry _ _ _ _, rfl,
    git_push_dry _ _, rfl, do_release_dry_fst _ _ _ _⟩

/-- C5: round trip of discovery and write: whenever set_version x
succeeds (non-dry) for a well-formed version string x (the spec's
VersionString data model: dotted digit groups with an optional -preN
marker), discovery afterwards finds the same build files, and every
one of them now declares exactly x. -/
theorem set_version_round_trip (x : String) (s s' : St)
    (hx : ValidVersionString x = true)
    (h : set_version x false s = (s', .ok ())) :
    (build_files s'.tree).map Prod.fst = (build_files s.tree).map Prod.fst ∧
    ∀ f ∈ build_files s'.tree, get_version_from_build f.1 f.2 = .ok x := by
  obtain ⟨⟨versions, hread⟩, hs'⟩ := set_version_ok_inv x s s' h
  obtain ⟨hne, hq, hnl⟩ := valid_chars x hx
  subst hs'
  constructor
  · rw [build_files_map_rewrite, List.map_map]
    rfl
  · intro f hf
    rw [build_files_map_rewrite] at hf
    rcases List.mem_map.mp hf with ⟨f0, hf0, rfl⟩
    obtain ⟨v0, hv0⟩ := readVersions_ok_mem _ _ hread f0 hf0
    have hrd := get_version_ok_readFirst _ _ _ hv0
    unfold get_version_from_build
    have hsub : readFirstL ((subVersion x f0.2)).data = some x.data := by
      show readFirstL (subF x.data true f0.2.data) = some x.data
      exact readFirst_subF x.data (fun h0 => hne h0) hq hnl
        f0.2.data.length f0.2.data (le_refl _) (by rw [hrd]; simp)
    rw [hsub]

/-- Witness for C5 at a concrete one-file tree moving from 1.0 to 2.0. -/
theorem set_version_round_trip_witness :
    (build_files ((set_version "2.0" false
        ⟨[("./build.gradle.kts", "version = \"1.0\"\n")], []⟩).1).tree).map
      Prod.fst =
      (build_files
        (⟨[("./build.gradle.kts", "version = \"1.0\"\n")], []⟩ : St).tree).map
      Prod.fst ∧
    ∀ f ∈ build_files ((set_version "2.0" false
        ⟨[("./build.gradle.kts", "version = \"1.0\"\n")], []⟩).1).tree,
      get_version_from_build f.1 f.2 = .ok "2.0" :=
  set_version_round_trip "2.0"
    ⟨[("./build.gradle.kts", "version = \"1.0\"\n")], []⟩
    (set_version "2.0" false
      ⟨[("./build.gradle.kts", "version = \"1.0\"\n")], []⟩).1
    (by decide) (by decide)

/-- C6: version_ints ignores a pre-release suffix: appending "-pre"
followed by any newline-free tail to a version string never changes
the computed tuple (the regex strips to the end of the line), and on
the spec's examples "1.2.3" and "1.2.3-pre1" both give the tuple
1, 2, 3. -/
theorem version_ints_strips_suffix :
    (∀ v t : String, '\n' ∉ t.data →
      version_ints (v ++ "-pre" ++ t) = version_ints v)
  ∧ version_ints "1.2.3" = some [1, 2, 3]
  ∧ version_ints "1.2.3-pre1" = some [1, 2, 3] :=
  ⟨version_ints_pre_suffix, by decide, by decide⟩

/-- Witness for C6, finalizing the suffix "-pre7" on version 1.2. -/
theorem version_ints_strips_suffix_witness :
    version_ints ("1.2" ++ "-pre" ++ "7") = version_ints "1.2"
  ∧ version_ints "1.2.3" = some [1, 2, 3]
  ∧ version_ints "1.2.3-pre1" = some [1, 2, 3] :=
  ⟨version_ints_strips_suffix.1 "1.2" "7" (by decide),
    version_ints_strips_suffix.2.1, version_ints_strips_suffix.2.2⟩

/-- C1: the monotonic-increase policy enforced by set_version: given
that both version strings have numeric tuples, set_version (on a tree
consistently reporting the old version) succeeds exactly when the
policy allows the change, the policy allows it exactly when either the
old version carries a pre-release marker and its tuple is
lexicographically at most the new one, or it carries none and its
tuple is strictly below; consequently a version with no pre-release
marker can never be re-released as itself, while a pre-release of a
version may be finalized to that version. -/
theorem increase_policy (old_v new_v : String) (oi ni : List Int)
    (h1 : version_ints old_v = some oi) (h2 : version_ints new_v = some ni) :
    (is_increase_allowed old_v new_v = some true ↔
      ((hasPre old_v = true ∧ listLe oi ni = true) ∨
        (hasPre old_v = false ∧ listLt oi ni = true)))
  ∧ (∀ (s : St) (dry : Bool) (versions : List String),
      readVersions (build_files s.tree) = .ok versions →
      versions ≠ [] →
      (∀ x ∈ versions, x = old_v) →
      ((set_version new_v dry s).2 = .ok () ↔
        is_increase_allowed old_v new_v = some true))
  ∧ (∀ (v t : String) (vi : List Int),
      version_ints v = some vi → '\n' ∉ t.data →
      (hasPre v = false → is_increase_allowed v v = some false)
      ∧ is_increase_allowed (v ++ "-pre" ++ t) v = some true) := by
  refine ⟨?_, ?_, ?_⟩
  · unfold is_increase_allowed
    rw [h1, h2]
    cases hp : hasPre old_v <;> simp [hp]
  · intro s dry versions hread hne hall
    obtain ⟨v0, vs, rfl⟩ : ∃ v0 vs, versions = v0 :: vs := by
      cases versions with
      | nil => exact absurd rfl hne
      | cons a l => exact ⟨a, l, rfl⟩
    have hv0 : v0 = old_v := hall v0 (by simp)
    subst hv0
    have hd : distinct (v0 :: vs) = [v0] := distinct_all_eq v0 _ (by simp) hall
    have hc : ¬((distinct (v0 :: vs)).length ≠ 1) := by rw [hd]; simp
    unfold set_version
    rw [hread]
    simp only [if_neg hc, h1, h2]
    unfold is_increase_allowed
    rw [h1, h2]
    cases hok : (if hasPre v0 then listLe oi ni else listLt oi ni) <;>
      cases dry <;> simp [hok]
  · intro v t vi hv ht
    constructor
    · intro hp
      unfold is_increase_allowed
      rw [hv, hp]
      simp [listLt_irrefl]
    · unfold is_increase_allowed
      rw [version_ints_pre_suffix v t ht, hv, hasPre_pre_suffix]
      simp [listLe_refl]

/-- Witness for C1: old version 1.0 in a single build file, new
version 1.1, tuples computed concretely. -/
theorem increase_policy_witness :
    (is_increase_allowed "1.0" "1.1" = some true ↔
      ((hasPre "1.0" = true ∧ listLe [1, 0] [1, 1] = true) ∨
        (hasPre "1.0" = false ∧ listLt [1, 0] [1, 1] = true)))
  ∧ (∀ (s : St) (dry : Bool) (versions : List String),
      readVersions (build_files s.tree) = .ok versions →
      versions ≠ [] →
      (∀ x ∈ versions, x = "1.0") →
      ((set_version "1.1" dry s).2 = .ok () ↔
        is_increase_allowed "1.0" "1.1" = some true))
  ∧ (∀ (v t : String) (vi : List Int),
      version_ints v = some vi → '\n' ∉ t.data →
      (hasPre v = false → is_increase_allowed v v = some false)
      ∧ is_increase_allowed (v ++ "-pre" ++ t) v = some true) :=
  increase_policy "1.0" "1.1" [1, 0] [1, 1] (by decide) (by decide)

/-- C10: when discovery finds no build file at all, set_version fails
with InvalidVersionError (over the empty version list) for every
requested version and every mode, and the state is unchanged. -/
theorem empty_discovery_invalid (version : String) (dry : Bool) (s : St)
    (h : build_files s.tree = []) :
    set_version version dry s = (s, .error (.inconsistentVersions [])) := by
  unfold set_version
  rw [h]
  rfl

/-- Witness for C10 at a concrete tree with no build file. -/
theorem empty_discovery_invalid_witness :
    set_version "1.0" false ⟨[("./README.md", "hello")], []⟩ =
    (⟨[("./README.md", "hello")], []⟩, .error (.inconsistentVersions [])) :=
  empty_discovery_invalid "1.0" false _ (by decide)

/-- C7 counterexample: in a successful non-dry release run, the very
last external command of step 9 is a tag push (git push --tags), so
the claim that the final push performs no tag push is false on the
code. -/
theorem step9_counterexample :
    (do_release (fun _ => true) "0.1.10" "bob" false
        ⟨[("./build.gradle.kts", "version = \"0.1.9\"\n")], []⟩).2 = .ok ()
  ∧ ((do_release (fun _ => true) "0.1.10" "bob" false
        ⟨[("./build.gradle.kts", "version = \"0.1.9\"\n")], []⟩).1).commands.getLast? =
      some ["git", "push", "--tags"] :=
  ⟨by decide, by decide⟩

/-- C7 amended: step 9 invokes git_push, which pushes commits and then
pushes tags; no new tag is created after step 3 (exactly one git tag
command occurs in the whole successful run), and the run's command
sequence ends with the commit push followed by the tag push. -/
theorem step9_push_amended (exec : List String → Bool)
    (version auditors : String) (s s' : St)
    (h : do_release exec version auditors false s = (s', .ok ())) :
    ∃ L : List (List String),
      s'.commands = s.commands ++ L ∧
      (∃ L0, L = L0 ++ [["git", "push"], ["git", "push", "--tags"]]) ∧
      L.countP isTagCmd = 1 := by
  unfold do_release at h
  obtain ⟨s1, hsv, h⟩ := andThen_ok_inv _ _ _ h
  obtain ⟨s2, hcb, h⟩ := andThen_ok_inv _ _ _ h
  obtain ⟨s3, hmt, h⟩ := andThen_ok_inv _ _ _ h
  obtain ⟨s4, hgp, h⟩ := andThen_ok_inv _ _ _ h
  obtain ⟨s5, hpub, h⟩ := andThen_ok_inv _ _ _ h
  cases hvi : version_ints version with
  | none =>
    rw [hvi] at h
    simp at h
  | some vi =>
    rw [hvi] at h
    obtain ⟨s6, hsv2, h⟩ := andThen_ok_inv _ _ _ h
    obtain ⟨s7, hcb2, h⟩ := andThen_ok_inv _ _ _ h
    have h1 : s1.commands = s.commands := by
      have hf := set_version_fst_commands version false s
      rw [hsv] at hf
      exact hf
    obtain ⟨-, adds1, hadds1, h2⟩ := commit_version_bump_ok _ _ _ _ _ hcb
    have h3 : s3.commands = s2.commands ++ [["git", "tag", "v" ++ version]] := by
      rw [run_command_ok _ _ _ _ hmt]
    have h4 : s4.commands =
        s3.commands ++ [["git", "push"], ["git", "push", "--tags"]] :=
      (runAll_ok _ _ _ _ hgp).2
    have h5 : s5.commands = s4.commands ++ [["./gradlew", "publish"]] := by
      rw [run_command_ok _ _ _ _ hpub]
    have h6 : s6.commands = s5.commands := by
      have hf := set_version_fst_commands (next_version_of vi) false s5
      rw [hsv2] at hf
      exact hf
    obtain ⟨-, adds2, hadds2, h7⟩ := commit_version_bump_ok _ _ _ _ _ hcb2
    have h8 : s'.commands =
        s7.commands ++ [["git", "push"], ["git", "push", "--tags"]] :=
      (runAll_ok _ _ _ _ h).2
    have hA1 : adds1.countP isTagCmd = 0 :=
      List.countP_eq_zero.mpr (fun c hc => by
        have hc2 := hadds1 c hc
        simp [isTagCmd, hc2])
    have hA2 : adds2.countP isTagCmd = 0 :=
      List.countP_eq_zero.mpr (fun c hc => by
        have hc2 := hadds2 c hc
        simp [isTagCmd, hc2])
    refine ⟨adds1 ++
        [["git", "commit", "-m", VERSION_BUMP_COMMIT_TEMPLATE version auditors]] ++
        [["git", "tag", "v" ++ version]] ++
        [["git", "push"], ["git", "push", "--tags"]] ++
        [["./gradlew", "publish"]] ++ adds2 ++
        [["git", "commit", "-m",
          VERSION_BUMP_COMMIT_TEMPLATE (next_version_of vi) auditors]] ++
        [["git", "push"], ["git", "push", "--tags"]], ?_, ?_, ?_⟩
    · rw [h8, h7, h6, h5, h4, h3, h2, h1]
      simp [List.append_assoc]
    · exact ⟨_, rfl⟩
    · simp only [List.countP_append, hA1, hA2]
      have ht : [["git", "tag", "v" ++ version]].countP isTagCmd = 1 := rfl
      have hc1 : [["git", "commit", "-m",
          VERSION_BUMP_COMMIT_TEMPLATE version auditors]].countP isTagCmd = 0 := rfl
      have hc2 : [["git", "commit", "-m",
          VERSION_BUMP_COMMIT_TEMPLATE (next_version_of vi) auditors]].countP
          isTagCmd = 0 := rfl
      have hp : [["git", "push"], ["git", "push", "--tags"]].countP isTagCmd = 0 :=
        rfl
      have hpub2 : [["./gradlew", "publish"]].countP isTagCmd = 0 := rfl
      rw [ht, hc1, hc2, hp, hpub2]

/-- Witness for the amended C7 at a concrete successful run. -/
theorem step9_push_amended_witness :
    ∃ L : List (List String),
      ((do_release (fun _ => true) "0.1.10" "bob" false
          ⟨[("./build.gradle.kts", "version = \"0.1.9\"\n")], []⟩).1).commands =
        (⟨[("./build.gradle.kts", "version = \"0.1.9\"\n")], []⟩ : St).commands ++ L ∧
      (∃ L0, L = L0 ++ [["git", "push"], ["git", "push", "--tags"]]) ∧
      L.countP isTagCmd = 1 :=
  step9_push_amended (fun _ => true) "0.1.10" "bob" _ _ (by decide)

/-- C9 counterexample: a build file whose later lines contain an
unclosed quote after the literal prefix. set_version succeeds (the
first line reads 1.0), but the MULTILINE regex substitution matches
across the newline, so the non-matching lines (the second and third)
are not preserved byte-for-byte: the whole-text rewrite differs from
the per-line rewrite the claim describes. -/
theorem rewrite_per_line_counterexample :
    set_version "2.0" false
      ⟨[("./build.gradle.kts", "version = \"1.0\"\nversion = \"a\nb\"")], []⟩ =
    (⟨[("./build.gradle.kts", "version = \"2.0\"\nversion = \"2.0\"")], []⟩,
      .ok ())
  ∧ perLineSub "2.0" "version = \"1.0\"\nversion = \"a\nb\"" =
      "version = \"2.0\"\nversion = \"a\nb\""
  ∧ subVersion "2.0" "version = \"1.0\"\nversion = \"a\nb\"" ≠
      perLineSub "2.0" "version = \"1.0\"\nversion = \"a\nb\"" :=
  ⟨by decide, by decide, by decide⟩

/-- C9 amended: for build files in which every line that starts with
the literal prefix of the pattern also contains its closing quote, the
rewrite performed by set_version is exactly the per-line rewrite: a
line matching the pattern keeps its prefix and everything after the
closing quote, with only the quoted value replaced, and every other
line is byte-for-byte unchanged; and set_version's writes are exactly
this substitution applied to every build file. The version is assumed
backslash-free, so that re.sub inserts it literally. -/
theorem rewrite_per_line_amended (x contents : String)
    (_hx : '\\' ∉ x.data) (hok : okFile contents = true) :
    subVersion x contents = perLineSub x contents
  ∧ (∀ l ∈ splitOnChar '\n' contents.data, matchVer l = none →
      rewriteLine x.data l = l)
  ∧ (∀ (l v a : List Char), matchVer l = some (v, a) →
      rewriteLine x.data l = verPre ++ x.data ++ '"' :: a)
  ∧ (∀ s s' : St, set_version x false s = (s', .ok ()) →
      s'.tree = s.tree.map (fun f =>
        if isBuildFilename f.1 then (f.1, subVersion x f.2) else f)) := by
  refine ⟨?_, ?_, ?_, ?_⟩
  · unfold subVersion perLineSub
    exact congrArg String.mk (subF_per_line x.data contents.data.length
      contents.data (le_refl _)
      (fun l hl => (List.all_eq_true.mp hok) l hl))
  · intro l hl hm
    unfold rewriteLine
    rw [hm]
  · intro l v a hm
    unfold rewriteLine
    rw [hm]
  · intro s s' h
    exact (set_version_ok_inv x s s' h).2 ▸ rfl

/-- Witness for the amended C9 at a concrete well-formed file. -/
theorem rewrite_per_line_amended_witness :
    subVersion "2.0" "version = \"1.0\"\nrest" =
      perLineSub "2.0" "version = \"1.0\"\nrest"
  ∧ (∀ l ∈ splitOnChar '\n' ("version = \"1.0\"\nrest" : String).data,
      matchVer l = none → rewriteLine ("2.0" : String).data l = l)
  ∧ (∀ (l v a : List Char), matchVer l = some (v, a) →
      rewriteLine ("2.0" : String).data l =
        verPre ++ ("2.0" : String).data ++ '"' :: a)
  ∧ (∀ s s' : St, set_version "2.0" false s = (s', .ok ()) →
      s'.tree = s.tree.map (fun f =>
        if isBuildFilename f.1 then (f.1, subVersion "2.0" f.2) else f)) :=
  rewrite_per_line_amended "2.0" "version = \"1.0\"\nrest" (by decide)
    (by decide)

/-- C8 counterexample: with consistent build files at version 1.0,
do_release applied to the non-numeric requested version "abc" escapes
with a ValueError (from int()), which is none of the three kinds in
the claimed taxonomy. -/
theorem error_taxonomy_counterexample :
    do_release (fun _ => true) "abc" "x" false
        ⟨[("./build.gradle.kts", "version = \"1.0\"\n")], []⟩ =
      (⟨[("./build.gradle.kts", "version = \"1.0\"\n")], []⟩,
        .error (.valueError "abc"))
  ∧ (Err.valueError "abc").isVersionParsingError = false
  ∧ (Err.valueError "abc").isInvalidVersionError = false
  ∧ (Err.valueError "abc").isCommandFailure = false := by
  refine ⟨by decide, rfl, rfl, rfl⟩

/-- C8 amended: every error escaping do_release is a
VersionParsingError, an InvalidVersionError, a command-execution
failure, or a ValueError raised by int() on a version string whose
numeric tuple cannot be computed. -/
theorem error_taxonomy_amended (exec : List String → Bool)
    (version auditors : String) (dry : Bool) (s s' : St) (e : Err)
    (h : do_release exec version auditors dry s = (s', .error e)) :
    e.isVersionParsingError = true ∨ e.isInvalidVersionError = true ∨
    e.isCommandFailure = true ∨
    (∃ arg, e = .valueError arg ∧ version_ints arg = none) := by
  have hsv : ∀ (v0 : String) (s0 s1 : St),
      set_version v0 dry s0 = (s1, .error e) →
      e.isVersionParsingError = true ∨ e.isInvalidVersionError = true ∨
      e.isCommandFailure = true ∨
      (∃ arg, e = .valueError arg ∧ version_ints arg = none) := by
    intro v0 s0 s1 hh
    rcases set_version_error_shape _ _ _ _ _ hh with
      ⟨fn, rfl⟩ | ⟨vs, rfl⟩ | ⟨o, n, rfl⟩ | ⟨a, rfl, ha⟩
    · exact Or.inl rfl
    · exact Or.inr (Or.inl rfl)
    · exact Or.inr (Or.inl rfl)
    · exact Or.inr (Or.inr (Or.inr ⟨a, rfl, ha⟩))
  unfold do_release at h
  rcases andThen_error_inv _ _ _ _ h with h | ⟨s1, hsv1, h⟩
  · exact hsv _ _ _ h
  rcases andThen_error_inv _ _ _ _ h with h | ⟨s2, hcb, h⟩
  · unfold commit_version_bump at h
    obtain ⟨c, rfl⟩ := runAll_error _ _ _ _ _ _ h
    exact Or.inr (Or.inr (Or.inl rfl))
  rcases andThen_error_inv _ _ _ _ h with h | ⟨s3, hmt, h⟩
  · unfold make_tag at h
    rcases hrc : run_command exec ["git", "tag", "v" ++ version] dry s2 with ⟨sm, rm⟩
    rw [hrc] at h
    injection h with hh1 hh2
    cases rm with
    | ok u => simp at hh2
    | error e0 =>
      have he0 := run_command_error _ _ _ _ _ _ hrc
      have : e0 = e := by injection hh2
      subst this
      subst he0
      exact Or.inr (Or.inr (Or.inl rfl))
  rcases andThen_error_inv _ _ _ _ h with h | ⟨s4, hgp, h⟩
  · unfold git_push at h
    obtain ⟨c, rfl⟩ := runAll_error _ _ _ _ _ _ h
    exact Or.inr (Or.inr (Or.inl rfl))
  rcases andThen_error_inv _ _ _ _ h with h | ⟨s5, hpub, h⟩
  · unfold do_publish at h
    rcases hrc : run_command exec ["./gradlew", "publish"] dry s4 with ⟨sm, rm⟩
    rw [hrc] at h
    injection h with hh1 hh2
    cases rm with
    | ok u => simp at hh2
    | error e0 =>
      have he0 := run_command_error _ _ _ _ _ _ hrc
      have : e0 = e := by injection hh2
      subst this
      subst he0
      exact Or.inr (Or.inr (Or.inl rfl))
  cases hvi : version_ints version with
  | none =>
    rw [hvi] at h
    injection h with hh1 hh2
    have : Err.valueError version = e := by injection hh2
    exact Or.inr (Or.inr (Or.inr ⟨version, this.symm, hvi⟩))
  | some vi =>
    rw [hvi] at h
    rcases andThen_error_inv _ _ _ _ h with h | ⟨s6, hsv2, h⟩
    · exact hsv _ _ _ h
    rcases andThen_error_inv _ _ _ _ h with h | ⟨s7, hcb2, h⟩
    · unfold commit_version_bump at h
      obtain ⟨c, rfl⟩ := runAll_error _ _ _ _ _ _ h
      exact Or.inr (Or.inr (Or.inl rfl))
    unfold git_push at h
    obtain ⟨c, rfl⟩ := runAll_error _ _ _ _ _ _ h
    exact Or.inr (Or.inr (Or.inl rfl))

/-- Witness for the amended C8 at the concrete ValueError-producing
run. -/
theorem error_taxonomy_amended_witness :
    (Err.valueError "abc").isVersionParsingError = true ∨
    (Err.valueError "abc").isInvalidVersionError = true ∨
    (Err.valueError "abc").isCommandFailure = true ∨
    (∃ arg, Err.valueError "abc" = .valueError arg ∧ version_ints arg = none) :=
  error_taxonomy_amended (fun _ => true) "abc" "x" false
    ⟨[("./build.gradle.kts", "version = \"1.0\"\n")], []⟩
    ⟨[("./build.gradle.kts", "version = \"1.0\"\n")], []⟩
    (Err.valueError "abc") (by decide)

end DoRelease
